import Mathlib

set_option maxRecDepth 8000
set_option maxHeartbeats 1000000

/-!
Verification development for the knowledge-hub ingestion / retrieval service.

The definitions below are a shallow embedding of the Python code in
`apps/server/app` (ingestion.py, jobs.py, llm.py, api/routes.py):

* Python strings are Lean `String`s; character classes are restricted to the
  ASCII classes the pipeline manipulates.
* Python floats are modelled exactly: as `ℚ` where the code only adds,
  divides and compares (OCR confidences, stored vectors), and as `ℝ` where
  the retrieval blending takes a square root (`var ** 0.5`).
* Database tables are lists of rows; SQL queries become list filters/sorts;
  external services (embedding model, OCR engine, LLM endpoint) are
  function-valued parameters.
-/

/-! ## Character classes and the `\w+|\S` token proxy -/

/-- Python's `\w` word-character class, for the ASCII range handled here. -/
def isWordChar (c : Char) : Bool := c.isAlphanum || c = '_'

/-- Python's `\s` / `str.isspace` whitespace class (ASCII). -/
def isSpaceChar (c : Char) : Bool :=
  c = ' ' || c = '\t' || c = '\n' || c = '\r' || c = '\x0b' || c = '\x0c'

/-- Count of regex matches of `\w+|\S`: maximal word-character runs count
once, any other non-space character counts once.  The boolean state records
whether we are inside a word run. -/
def tokAux : Bool → List Char → Nat
  | _, [] => 0
  | inWord, c :: cs =>
    if isWordChar c then (if inWord then 0 else 1) + tokAux true cs
    else if isSpaceChar c then tokAux false cs
    else 1 + tokAux false cs

/-- Model of `_rough_tokens` (ingestion.py) = `_rough_tokens_local` (routes.py):
`max(0, len(re.findall(r"\w+|\S", s)))`. -/
def roughTokens (s : String) : Nat := tokAux false s.data

/-- The scanner state of `tokAux` after consuming a character list. -/
def tokState : Bool → List Char → Bool
  | b, [] => b
  | _, c :: cs => tokState (isWordChar c) cs

/-! ## Python string primitives -/

/-- Leading-whitespace removal (`str.lstrip`). -/
def stripLeft (l : List Char) : List Char := l.dropWhile (fun c => isSpaceChar c)

/-- Trailing-whitespace removal (`str.rstrip`). -/
def stripRight (l : List Char) : List Char :=
  (l.reverse.dropWhile (fun c => isSpaceChar c)).reverse

/-- Python `str.strip()` on the character list. -/
def stripList (l : List Char) : List Char := stripRight (stripLeft l)

/-- Python `str.strip()`. -/
def stripStr (s : String) : String := String.mk (stripList s.data)

/-- Python `str.rstrip()`. -/
def rstripStr (s : String) : String := String.mk (stripRight s.data)

/-- Python `str.splitlines()` worker: accumulates the current line (reversed) and
splits on `\n`, `\r\n` and `\r`. -/
def splitlinesAux : List Char → List Char → List String
  | acc, [] => if acc.isEmpty then [] else [String.mk acc.reverse]
  | acc, '\r' :: '\n' :: rest => String.mk acc.reverse :: splitlinesAux [] rest
  | acc, '\r' :: rest => String.mk acc.reverse :: splitlinesAux [] rest
  | acc, '\n' :: rest => String.mk acc.reverse :: splitlinesAux [] rest
  | acc, c :: rest => splitlinesAux (c :: acc) rest

/-- Python `str.splitlines()` (newline family restricted to `\n`, `\r\n`, `\r`). -/
def splitlines (s : String) : List String :=
  if s.data.isEmpty then [] else splitlinesAux [] s.data

/-- Python `str.split()` worker (split on whitespace runs, dropping empties). -/
def splitWsAux : List Char → List Char → List String
  | acc, [] => if acc.isEmpty then [] else [String.mk acc.reverse]
  | acc, c :: rest =>
    if isSpaceChar c then
      if acc.isEmpty then splitWsAux [] rest
      else String.mk acc.reverse :: splitWsAux [] rest
    else splitWsAux (c :: acc) rest

/-- Python `str.split()` with no separator argument. -/
def splitWs (s : String) : List String := splitWsAux [] s.data

/-- Python `sep.join(parts)`. -/
def joinWith (sep : String) : List String → String
  | [] => ""
  | [x] => x
  | x :: y :: rest => x ++ sep ++ joinWith sep (y :: rest)

/-- Python `l[-n:]`, for `n > 0`. -/
def takeLastList {α : Type} (n : Nat) (l : List α) : List α := l.drop (l.length - n)

/-- Numeric value of a digit string. -/
def digitsVal (l : List Char) : Nat := l.foldl (fun a c => a * 10 + (c.toNat - 48)) 0

/-! ## Embedding indexer (jobs.py)

`iter_chunk_ids_texts` pages through the chunks that have no embedding row
yet (`~Chunk.id.in_(select(Embedding.chunk_id))`, ordered by ascending id)
using `LIMIT batch_size OFFSET offset`, re-running the query after every
yielded batch; `index_embeddings` consumes each batch, embeds the texts and
commits new `Embedding` rows before the generator resumes. -/

/-- A row of the `chunks` table (the columns the indexer touches). -/
structure ChunkRow where
  id : Nat
  documentId : Nat
  text : Option String
deriving Repr, DecidableEq

/-- A row of the `embeddings` table. -/
structure EmbRow where
  chunkId : Nat
  model : String
  dim : Nat
  vector : List ℚ
deriving Repr, DecidableEq

/-- The `ORDER BY chunks.id ASC` ordering (insertion sort by id). -/
def insertById (c : ChunkRow) : List ChunkRow → List ChunkRow
  | [] => [c]
  | d :: ds => if c.id ≤ d.id then c :: d :: ds else d :: insertById c ds

def sortById : List ChunkRow → List ChunkRow
  | [] => []
  | c :: cs => insertById c (sortById cs)

/-- The optional document filter.  Python's `if document_id:` is truthiness:
passing `0` (or `None`) disables the filter. -/
def docMatches (docFilter : Option Nat) (c : ChunkRow) : Bool :=
  match docFilter with
  | none => true
  | some d => if d = 0 then true else c.documentId == d

/-- Membership in the `SELECT Embedding.chunk_id` subquery. -/
def hasEmbedding (embs : List EmbRow) (cid : Nat) : Bool :=
  embs.any (fun e => e.chunkId == cid)

/-- The query of `iter_chunk_ids_texts` evaluated against the current table
contents: chunks passing the document filter whose id is not among the
embedding foreign keys, ordered by ascending id. -/
def pendingChunks (chunks : List ChunkRow) (embs : List EmbRow)
    (docFilter : Option Nat) : List ChunkRow :=
  sortById ((chunks.filter (docMatches docFilter)).filter
    (fun c => !(hasEmbedding embs c.id)))

/-- One page: `q.limit(batch_size).offset(offset).all()`, then
`[(cid, (txt or "")) for cid, txt in batch]`. -/
def pageOf (chunks : List ChunkRow) (embs : List EmbRow) (docFilter : Option Nat)
    (offset B : Nat) : List (Nat × String) :=
  (((pendingChunks chunks embs docFilter).drop offset).take B).map
    (fun c => (c.id, c.text.getD ""))

/-- Result of `index_embeddings`: the embeddings table after the run and the
returned `{"chunks_indexed": …, "vectors_created": …}` counts. -/
structure IndexResult where
  embs : List EmbRow
  chunksIndexed : Nat
  vectorsCreated : Nat
deriving Repr, DecidableEq

/-- The interleaved generator/consumer loop of `index_embeddings`: take the
page at `offset`, commit embeddings for it, advance `offset` by the batch
size, and re-run the (now smaller) exclusion query.  `embedFn` stands for
`embed_texts` restricted to one text; `dim` is `vecs.shape[1]`. -/
def indexLoop (embedFn : String → List ℚ) (modelName : String)
    (docFilter : Option Nat) (B : Nat) (chunks : List ChunkRow)
    (embs : List EmbRow) (offset totC totV : Nat) : IndexResult :=
  if hb : (((pendingChunks chunks embs docFilter).drop offset).take B) = [] then
    ⟨embs, totC, totV⟩
  else
    let batch := pageOf chunks embs docFilter offset B
    let ids := batch.map (fun b => b.1)
    let texts := batch.map (fun b => b.2)
    let vecs := texts.map embedFn
    let dim := (vecs.headD []).length
    let rows := (ids.zip vecs).map (fun iv => EmbRow.mk iv.1 modelName dim iv.2)
    indexLoop embedFn modelName docFilter B chunks (embs ++ rows) (offset + B)
      (totC + batch.length) (totV + rows.length)
termination_by (chunks.length + 1) - offset
decreasing_by
  have hlen : ∀ l : List ChunkRow, (sortById l).length = l.length := by
    intro l
    induction l with
    | nil => rfl
    | cons c cs ih =>
      have hins : ∀ (d : ChunkRow) (m : List ChunkRow),
          (insertById d m).length = m.length + 1 := by
        intro d m
        induction m with
        | nil => rfl
        | cons e es ihm =>
          by_cases h : d.id ≤ e.id
          · simp [insertById, h]
          · simp [insertById, h, ihm]
      simp [sortById, hins, ih]
  have hple : (pendingChunks chunks embs docFilter).length ≤ chunks.length := by
    calc (pendingChunks chunks embs docFilter).length
        = ((chunks.filter (docMatches docFilter)).filter
            (fun c => !(hasEmbedding embs c.id))).length := hlen _
      _ ≤ (chunks.filter (docMatches docFilter)).length := List.length_filter_le _ _
      _ ≤ chunks.length := List.length_filter_le _ _
  have htake : ((pendingChunks chunks embs docFilter).drop offset) ≠ [] ∧ B ≠ 0 := by
    constructor
    · intro h; exact hb (by simp [h])
    · intro h; exact hb (by simp [h])
  have hoff : offset < (pendingChunks chunks embs docFilter).length := by
    by_contra h
    push_neg at h
    exact htake.1 (List.drop_eq_nil_of_le h)
  have h1 : offset < chunks.length := lt_of_lt_of_le hoff hple
  have h2 : 1 ≤ B := Nat.one_le_iff_ne_zero.mpr htake.2
  omega

/-- Model of `index_embeddings(document_id, batch_size, model_name)` acting on the
given table contents. -/
def indexEmbeddings (embedFn : String → List ℚ) (docFilter : Option Nat)
    (B : Nat) (modelName : String) (chunks : List ChunkRow)
    (embs : List EmbRow) : IndexResult :=
  indexLoop embedFn modelName docFilter B chunks embs 0 0 0

/-- Two-chunk table (both lacking embeddings) used to exercise the indexer. -/
def twoChunks : List ChunkRow := [⟨1, 1, some "alpha"⟩, ⟨2, 1, some "beta"⟩]

/-- A stand-in embedding model: every text maps to the unit vector `[1]`. -/
def constEmbed : String → List ℚ := fun _ => [1]

/-! ## OCR variant selection (ingestion.py `_ocr_best`)

`_ocr_best` loops over the preprocessed image variants and the three
tesseract configurations; each `(variant, config)` pair produces a
`pytesseract.image_to_data` dictionary with parallel `text`/`conf` lists.
We model the engine output for the pairs, in iteration order, as a list of
such dictionaries. -/

/-- The `text`/`conf` lists of one `image_to_data` call. -/
structure TessData where
  text : List String
  conf : List String
deriving Repr, DecidableEq

/-- Modelled from Python `float(c)` restricted to the decimal numerals
(optional sign, digits, optional fractional part) that OCR confidence
values take; other strings raise, i.e. return `none`. -/
def pyFloat? (s : String) : Option ℚ :=
  let signed : ℚ × List Char :=
    match s.data with
    | '-' :: rest => (-1, rest)
    | '+' :: rest => (1, rest)
    | l => (1, l)
  let intPart := signed.2.takeWhile Char.isDigit
  let rest := signed.2.dropWhile Char.isDigit
  match rest with
  | [] => if intPart.isEmpty then none else some (signed.1 * digitsVal intPart)
  | '.' :: frac =>
    if frac.all Char.isDigit && !(intPart.isEmpty && frac.isEmpty) then
      some (signed.1 * ((digitsVal intPart : ℚ) + (digitsVal frac : ℚ) / (10 ^ frac.length)))
    else none
  | _ => none

/-- Token filter of `_ocr_best`: `t and t.strip() and c != "-1"`. -/
def keepTok (tc : String × String) : Bool :=
  (tc.1 != "") && (stripStr tc.1 != "") && (tc.2 != "-1")

/-- The body of the inner loop of `_ocr_best` for one `(variant, config)`
pair: join the kept token texts with blanks and strip; average the kept
confidences that parse as floats (`scores`), defaulting to `0.0`. -/
def scorePair (d : TessData) : String × ℚ :=
  let toks := d.text.zip d.conf
  let kept := toks.filter keepTok
  let pieces := kept.map (fun tc => tc.1)
  let scores := kept.filterMap (fun tc => pyFloat? tc.2)
  let text := stripStr (joinWith " " pieces)
  let conf : ℚ := if scores.isEmpty then 0 else scores.sum / scores.length
  (text, conf)

/-- The update `if conf > best_conf and text: best_text, best_conf = text, conf`. -/
def ocrStep (best : String × ℚ) (d : TessData) : String × ℚ :=
  let sc := scorePair d
  if best.2 < sc.2 ∧ sc.1 ≠ "" then sc else best

/-- Model of `_ocr_best` over the engine outputs of all `(variant, config)` pairs in
iteration order, starting from `best_text, best_conf = "", 0.0`. -/
def ocrBest (results : List TessData) : String × ℚ :=
  results.foldl ocrStep ("", 0)

/-! ## Chunker (ingestion.py `_is_heading`, `_chunk_page_text`) -/

/-- Python `line.endswith(('.', ':', ';'))`. -/
def endsWithPunct (l : List Char) : Bool :=
  match l.getLast? with
  | some c => c = '.' || c = ':' || c = ';'
  | none => false

/-- The regex `re.match(r"^(\d+\.|[\-\*•])\s", line)`: a digit run followed by a
literal dot and whitespace, or a single `-`/`*`/`•` followed by whitespace. -/
def isBulletStart (l : List Char) : Bool :=
  match l with
  | [] => false
  | c :: rest =>
    if c = '-' || c = '*' || c = '•' then
      match rest with
      | d :: _ => isSpaceChar d
      | [] => false
    else if c.isDigit then
      match rest.dropWhile Char.isDigit with
      | '.' :: e :: _ => isSpaceChar e
      | _ => false
    else false

/-- Python `str.isupper()` (ASCII): at least one cased character, and every cased
character upper-case. -/
def isUpperStr (l : List Char) : Bool :=
  l.any Char.isAlpha && l.all (fun c => !c.isAlpha || c.isUpper)

/-- The count test `sum(1 for w in line.split() if w[:1].isupper()) >= max(1, len(words)//2)`. -/
def titleCaseHeuristic (s : String) : Bool :=
  let ws := splitWs s
  max 1 (ws.length / 2) ≤ (ws.filter (fun w => (w.data.head?).elim false Char.isUpper)).length

/-- Model of `_is_heading`. -/
def isHeading (line : String) : Bool :=
  let l := stripStr line
  if l.data.isEmpty then false
  else if 80 < l.data.length then false
  else if endsWithPunct l.data then false
  else if isBulletStart l.data then false
  else (isUpperStr l.data && 3 ≤ l.data.length) || titleCaseHeuristic l

/-- State of the line scan of `_chunk_page_text`: collected headings,
finished paragraphs, and the buffered lines of the open paragraph. -/
structure ParaState where
  headings : List String
  paras : List String
  buf : List String
deriving Repr, DecidableEq

/-- One line of the scan: headings are recorded (and still buffered);
non-blank lines extend the buffer; a blank line closes the paragraph. -/
def paraStep (st : ParaState) (ln : String) : ParaState :=
  let st1 := if isHeading ln then { st with headings := st.headings ++ [stripStr ln] } else st
  if stripStr ln != "" then { st1 with buf := st1.buf ++ [ln] }
  else if st1.buf.isEmpty then st1
  else { st1 with paras := st1.paras ++ [stripStr (joinWith "\n" st1.buf)], buf := [] }

/-- The line scan over `[ln.rstrip() for ln in text.splitlines()] + [""]`. -/
def parseParas (text : String) : ParaState :=
  (((splitlines text).map rstripStr) ++ [""]).foldl paraStep ⟨[], [], []⟩

/-- The heading path `" > ".join(headings[-2:]) if headings else None`. -/
def headingPathOf (st : ParaState) : Option String :=
  if st.headings.isEmpty then none
  else some (joinWith " > " (takeLastList 2 st.headings))

/-- State of the greedy packing loop: closed chunks, the open chunk's
paragraph list `cur`, and its running token estimate `cur_tokens`. -/
structure PackState where
  chunks : List String
  cur : List String
  curTokens : Nat
deriving Repr, DecidableEq

/-- The join `"\n\n".join(cur)`. -/
def joinParas (cur : List String) : String := joinWith "\n\n" cur

/-- One paragraph of the packing loop of `_chunk_page_text`. -/
def packStep (tmin tmax ovl : Nat) (st : PackState) (p : String) : PackState :=
  let ptoks := roughTokens p
  if st.curTokens + ptoks ≤ tmax then
    { st with cur := st.cur ++ [p], curTokens := st.curTokens + ptoks }
  else if tmin ≤ st.curTokens ∨ st.cur = [] then
    let chunk := stripStr (joinParas st.cur)
    if 0 < ovl ∧ chunk ≠ "" then
      let seed := joinWith " " (takeLastList ovl (splitWs chunk))
      { chunks := st.chunks ++ [chunk], cur := [seed, p],
        curTokens := roughTokens seed + ptoks }
    else
      { chunks := st.chunks ++ [chunk], cur := [p], curTokens := ptoks }
  else
    { st with cur := st.cur ++ [p], curTokens := st.curTokens + ptoks }

/-- After the loop: `if cur: chunks.append("\n\n".join(cur).strip())`. -/
def finishPack (st : PackState) : List String :=
  if st.cur.isEmpty then st.chunks else st.chunks ++ [stripStr (joinParas st.cur)]

/-- The chunk texts produced from a paragraph list. -/
def packParagraphs (tmin tmax ovl : Nat) (paras : List String) : List String :=
  finishPack (paras.foldl (packStep tmin tmax ovl) ⟨[], [], 0⟩)

/-- Invariant of the packing loop: `cur_tokens` tracks the token sum of
`cur`; `cur` is empty only while nothing has been flushed; and every closed
chunk meets the min window except a (necessarily first and empty) chunk
flushed while `cur` was empty. -/
def PackInvariant (tmin : Nat) (st : PackState) : Prop :=
  st.curTokens = (st.cur.map roughTokens).sum
  ∧ (st.cur = [] → st.chunks = [])
  ∧ ∀ i (h : i < st.chunks.length),
      tmin ≤ roughTokens (st.chunks.get ⟨i, h⟩) ∨ (i = 0 ∧ st.chunks.get ⟨i, h⟩ = "")

/-- Model of `_chunk_page_text(page_no, text, target_min, target_max, overlap)`:
yields `(idx, chunk_text, heading_path)` triples.  (`page_no` is accepted
but unused, as in the source.) -/
def chunkPageText (_pageNo : Nat) (text : String) (tmin tmax ovl : Nat) :
    List (Nat × String × Option String) :=
  let st := parseParas text
  let chs := packParagraphs tmin tmax ovl st.paras
  chs.enum.map (fun ic => (ic.1, ic.2, headingPathOf st))

/-! ## Chunk persistence for PDF pages (ingestion.py `process_document`) -/

/-- The `Chunk` row created for one emitted chunk of a PDF page. -/
structure ChunkNew where
  documentId : Nat
  version : Nat
  pageNo : Nat
  chunkIndex : Nat
  text : String
  modality : String
  tokens : Nat
  ocrConf : ℚ
  headingPath : Option String
deriving Repr, DecidableEq

/-- The chunks persisted for one extracted PDF page `(page_no, text, conf)`,
where `conf` is `None` for pages whose embedded text was used:
`base_conf = conf if conf is not None else 100.0`, and each chunk stores
`extra_json = {"ocr_conf": base_conf, …}`. -/
def pdfPageChunks (docId pageNo : Nat) (text : String) (conf : Option ℚ) :
    List ChunkNew :=
  (chunkPageText pageNo text 300 700 50).map (fun ich =>
    { documentId := docId
      version := 1
      pageNo := pageNo
      chunkIndex := ich.1
      text := stripStr ich.2.1
      modality := "text"
      tokens := roughTokens ich.2.1
      ocrConf := conf.getD 100
      headingPath := ich.2.2 })

/-- A page text consisting of a single 701-token paragraph (701 dots: each
non-space symbol is one `\w+|\S` token), exceeding the 700-token max
window on its own. -/
def hugeParaText : String := String.mk (List.replicate 701 '.')

/-! ## Citation extraction (llm.py) -/

/-- Attempt to match `\[CIT-(\d+)\]` at the head of the character list;
on success return the captured number and the characters after the match. -/
def matchCit : List Char → Option (Nat × List Char)
  | '[' :: 'C' :: 'I' :: 'T' :: '-' :: rest =>
    let ds := rest.takeWhile Char.isDigit
    if ds.isEmpty then none
    else
      match rest.dropWhile Char.isDigit with
      | ']' :: rest2 => some (digitsVal ds, rest2)
      | _ => none
  | _ => none

/-- The scan `_CIT_PATTERN.finditer`: left-to-right scan collecting the captured
numbers of every `\[CIT-(\d+)\]` match.  After a match at some position the
scan may resume one character later instead of after the match: a match's
interior contains no `[`, so exactly the same (non-overlapping) matches are
found. -/
def scanCits : List Char → List Nat
  | [] => []
  | c :: cs =>
    match matchCit (c :: cs) with
    | some nr => nr.1 :: scanCits cs
    | none => scanCits cs

/-- Insertion step of `extract_citation_indices` = `sorted(set(int(g) for g in matches))`:
insert every scanned number into a strictly-sorted duplicate-free list. -/
def insertSortedNodup (n : Nat) : List Nat → List Nat
  | [] => [n]
  | m :: ms =>
    if n < m then n :: m :: ms
    else if n = m then m :: ms
    else m :: insertSortedNodup n ms

/-- Model of `extract_citation_indices(text)`. -/
def extractCitationIndices (s : String) : List Nat :=
  (scanCits s.data).foldr insertSortedNodup []

/-! ## Context trimming (routes.py `_trim_preserve_sentence`) -/

/-- Sentence-final punctuation `[.!?]`. -/
def isSentencePunct (c : Char) : Bool := c = '.' || c = '!' || c = '?'

/-- Index of the last character satisfying `p`, if any. -/
def lastIdxSat (p : Char → Bool) (l : List Char) : Option Nat :=
  ((l.enum.filter (fun ic => p ic.2)).getLast?).map (fun ic => ic.1)

/-- The fallback of `_trim_preserve_sentence`:
`ws = cut.rfind(" "); return cut[: ws if ws > 0 else max_chars].strip()`. -/
def trimFallback (cut : List Char) : String :=
  match lastIdxSat (fun c => c = ' ') cut with
  | some w => if 0 < w then String.mk (stripList (cut.take w)) else String.mk (stripList cut)
  | none => String.mk (stripList cut)

/-- Model of `_trim_preserve_sentence(text, max_chars)`.  The regex
`[\.!?]\s+[^\.!?]*$` matches exactly when the last sentence punctuation
character of `cut` is followed by a whitespace character; the match starts
there. -/
def trimPreserveSentence (text : String) (maxChars : Nat) : String :=
  let t := stripStr text
  if t.data.length ≤ maxChars then t
  else
    let cut := t.data.take maxChars
    match lastIdxSat isSentencePunct cut with
    | some i =>
      if h : i + 1 < cut.length then
        if isSpaceChar (cut.get ⟨i + 1, h⟩) then String.mk (stripList (cut.take (i + 1)))
        else trimFallback cut
      else trimFallback cut
    | none => trimFallback cut

/-! ## Hybrid retrieval blending (routes.py `search_hybrid` and its mirror
`_hybrid_retrieve_for_answer`)

The two SQL sides are modelled by their result rows; `ocr_conf` is already
`COALESCE`d to `100.0` by the queries, so it is a plain real.  Scores are
reals because `zstats` takes `var ** 0.5`. -/

/-- A row of the semantic (pgvector) side. -/
structure SemRow where
  chunkId : Nat
  documentId : Nat
  documentTitle : String
  pageNo : Option Int
  chunkIndex : Option Int
  vdist : ℝ
  preview : String
  ocrConf : ℝ

/-- A row of the full-text-search side. -/
structure FtsRow where
  chunkId : Nat
  documentId : Nat
  documentTitle : String
  pageNo : Option Int
  chunkIndex : Option Int
  frank : ℝ
  snippet : String
  ocrConf : ℝ

/-- Python float truthiness fallback `x or 1.0`. -/
noncomputable def orOne (x : ℝ) : ℝ := if x = 0 then 1 else x

/-- Model of `zstats(values)`: mean and (sample) standard deviation, with
`sd = (var ** 0.5) or 1.0` and `(0.0, 1.0)` for the empty list.  (In this
real-valued model every value is finite, so the `isfinite` filter of the
source is the identity.) -/
noncomputable def zstats (vals : List ℝ) : ℝ × ℝ :=
  if vals.isEmpty then (0, 1)
  else
    let mu := vals.sum / (vals.length : ℝ)
    let var := (vals.map (fun x => (x - mu) ^ 2)).sum / ((max 1 (vals.length - 1) : ℕ) : ℝ)
    (mu, orOne (Real.sqrt var))

/-- Semantic similarity `1.0 - vdist`. -/
noncomputable def semSim (r : SemRow) : ℝ := 1 - r.vdist

/-- The blended per-candidate record (the `combined[cid]` dictionaries).
`score` and `lowConfidence` are written by the final scoring pass. -/
structure HybridItem where
  chunkId : Nat
  documentId : Nat
  documentTitle : String
  pageNo : Option Int
  chunkIndex : Option Int
  preview : Option String
  snippet : Option String
  vscore : ℝ
  fscore : ℝ
  ocrConf : ℝ
  score : ℝ
  lowConfidence : Prop

/-- Python `dict` insert-or-assign: an existing key keeps its position and
receives the new value, a new key is appended. -/
def upsertRow {α : Type} (k : Nat) (v : α) (m : List (Nat × α)) : List (Nat × α) :=
  if m.any (fun kv => kv.1 == k) then
    m.map (fun kv => if kv.1 == k then (k, v) else kv)
  else m ++ [(k, v)]

/-- The dict comprehension `{key(r): r for r in rows}`. -/
def buildDict {α : Type} (key : α → Nat) (rows : List α) : List (Nat × α) :=
  rows.foldl (fun m r => upsertRow (key r) r m) []

/-- Association-list lookup (`dict[k]` / `k in dict`): the first entry with
the given key. -/
def lookupKey {α : Type} : List (Nat × α) → Nat → Option α
  | [], _ => none
  | kv :: m, k => if kv.1 = k then some kv.2 else lookupKey m k

/-- Seeding `combined` from the semantic dictionary. -/
noncomputable def seedSemEntry (vmu vsd : ℝ) (r : SemRow) : HybridItem :=
  { chunkId := r.chunkId
    documentId := r.documentId
    documentTitle := r.documentTitle
    pageNo := r.pageNo
    chunkIndex := r.chunkIndex
    preview := some r.preview
    snippet := none
    vscore := (semSim r - vmu) / orOne vsd
    fscore := 0
    ocrConf := r.ocrConf
    score := 0
    lowConfidence := False }

/-- The fresh entry created when an FTS candidate is not in `combined`. -/
noncomputable def newFtsEntry (fmu fsd : ℝ) (r : FtsRow) : HybridItem :=
  { chunkId := r.chunkId
    documentId := r.documentId
    documentTitle := r.documentTitle
    pageNo := r.pageNo
    chunkIndex := r.chunkIndex
    preview := none
    snippet := some r.snippet
    vscore := 0
    fscore := (r.frank - fmu) / orOne fsd
    ocrConf := r.ocrConf
    score := 0
    lowConfidence := False }

/-- The in-place update `combined[cid]["fscore"] = fnorm;
combined[cid]["snippet"] = r["snippet"]` applied to an existing entry. -/
noncomputable def updFtsEntry (fmu fsd : ℝ) (r : FtsRow) (e : HybridItem) : HybridItem :=
  { e with fscore := (r.frank - fmu) / orOne fsd, snippet := some r.snippet }

/-- Merging one FTS dictionary entry into `combined`: update `fscore` and
`snippet` of an existing entry, or append a fresh one. -/
noncomputable def mergeFts (fmu fsd : ℝ) (m : List (Nat × HybridItem))
    (cid : Nat) (r : FtsRow) : List (Nat × HybridItem) :=
  if m.any (fun kv => kv.1 == cid) then
    m.map (fun kv => if kv.1 == cid then (cid, updFtsEntry fmu fsd r kv.2) else kv)
  else m ++ [(cid, newFtsEntry fmu fsd r)]

/-- The coercion `float(it.get("ocr_conf") or 100.0)`: Python `or` replaces the falsy
confidence `0.0` (as well as a missing one) by `100.0`. -/
noncomputable def effConf (c : ℝ) : ℝ := if c = 0 then 100 else c

/-- The multiplier `mult = 0.85 + 0.15 * max(0.0, min(conf, 100.0)) / 100.0`. -/
noncomputable def confMult (c : ℝ) : ℝ :=
  0.85 + 0.15 * max 0 (min (effConf c) 100) / 100

/-- The final score `it["score"] = (alpha * vscore + beta * fscore) * mult` with
`alpha, beta = 0.6, 0.4`. -/
noncomputable def fuseScore (v f c : ℝ) : ℝ := (0.6 * v + 0.4 * f) * confMult c

/-- The final scoring pass over one item (`score` and `low_confidence`). -/
noncomputable def scoreItem (it : HybridItem) : HybridItem :=
  { it with
    score := fuseScore it.vscore it.fscore it.ocrConf
    lowConfidence := effConf it.ocrConf < 60 }

/-- The blend stage shared by `search_hybrid` and
`_hybrid_retrieve_for_answer`: z-stats over each side's raw scores, the
`combined` dictionary (semantic seeding, then FTS merge), and the final
scoring pass.  The subsequent stable sort by descending score and
truncation to `limit` do not alter any item. -/
noncomputable def blendItems (semRows : List SemRow) (ftsRows : List FtsRow) :
    List HybridItem :=
  let vst := zstats (semRows.map semSim)
  let fst' := zstats (ftsRows.map (fun r => r.frank))
  let semD := buildDict (fun r => r.chunkId) semRows
  let ftsD := buildDict (fun r => r.chunkId) ftsRows
  let seeded := semD.map (fun kv => (kv.1, seedSemEntry vst.1 vst.2 kv.2))
  let merged := ftsD.foldl (fun m kv => mergeFts fst'.1 fst'.2 m kv.1 kv.2) seeded
  (merged.map (fun kv => kv.2)).map scoreItem

/-- The last row of a side with a given chunk id — the one whose values the
`{r["chunk_id"]: r for r in rows}` dictionary retains. -/
def lastByKey {α : Type} (key : α → Nat) (rows : List α) (k : Nat) : Option α :=
  (rows.filter (fun r => key r == k)).getLast?

/-! ## Answer synthesis (routes.py `answer_api`)

The endpoint after request parsing: the retrieval output `top_items`, the
chunk-table lookup behind the `Chunk.id.in_(ids)` query, and the LLM
endpoint are inputs.  `llm n` is the reply of the `n`-th successful
`ollama_chat` call and `llmMsOf n` its reported `llm_ms`; wall-clock
`retrieve_ms`/`total_ms` timings are outside the model.  (LLM transport
failures raise and produce the 502 response; the claims below concern the
success paths, where `ollama_chat` returns a reply.) -/

/-- The columns fetched for packing (`by_id` values). -/
structure AnswerRow where
  text : Option String
  pageNo : Option Int
  chunkIndex : Option Int
  documentId : Nat
  documentTitle : String

/-- One packed context block. -/
structure PackBlock where
  title : String
  pageNo : Option Int
  chunkIndex : Option Int
  text : String

/-- One `cit_map` provenance entry. -/
structure Prov where
  chunkId : Nat
  documentId : Nat
  pageNo : Option Int
  title : String

/-- State of the packing loop of `answer_api`. -/
structure AnswerPackState where
  seenPages : List (Nat × Int)
  packed : List PackBlock
  tokensAcc : Nat
  usedChunkIds : List Nat
  citMap : List Prov

/-- The packing loop: skip unknown ids, deduplicate by
`(document_id, page_no or -1)` (a page is marked seen before the text
check), trim each text to 800 characters, and stop (`break`) as soon as a
chunk would push the running token estimate over `max_ctx_tokens`. -/
def packLoop (chunkDb : Nat → Option AnswerRow) (maxCtxTokens : Nat) :
    List HybridItem → AnswerPackState → AnswerPackState
  | [], st => st
  | it :: rest, st =>
    match chunkDb it.chunkId with
    | none => packLoop chunkDb maxCtxTokens rest st
    | some r =>
      let key : Nat × Int := (r.documentId, r.pageNo.getD (-1))
      if key ∈ st.seenPages then packLoop chunkDb maxCtxTokens rest st
      else
        let st1 := { st with seenPages := st.seenPages ++ [key] }
        let text := trimPreserveSentence (r.text.getD "") 800
        if text = "" then packLoop chunkDb maxCtxTokens rest st1
        else
          let ctoks := roughTokens text
          if maxCtxTokens < st1.tokensAcc + ctoks then st1
          else
            packLoop chunkDb maxCtxTokens rest
              { seenPages := st1.seenPages
                packed := st1.packed ++ [⟨r.documentTitle, r.pageNo, r.chunkIndex, text⟩]
                tokensAcc := st1.tokensAcc + ctoks
                usedChunkIds := st1.usedChunkIds ++ [it.chunkId]
                citMap := st1.citMap ++ [⟨it.chunkId, r.documentId, r.pageNo, r.documentTitle⟩] }

/-- The system instruction (four adjacent string literals in the source). -/
def systemMsg : String :=
  "You answer only from the provided CONTEXT. If insufficient, say so. Include [CIT-#] after each claim. Be concise but complete. Do not use prior knowledge.You are a helpful assistant that can answer questions about the provided CONTEXT.Don\x27t say \x27based on the context\x27 or \x27based on the provided information\x27 everytime you answer a question ."

/-- The per-block context header
`[CIT-{i}] Title: "{title}"` plus `, Page {page_no}` when `page_no` is
truthy. -/
def citHead (i : Nat) (blk : PackBlock) : String :=
  let base := "[CIT-" ++ toString i ++ "] Title: \x22" ++ blk.title ++ "\x22"
  match blk.pageNo with
  | some p => if p ≠ 0 then base ++ ", Page " ++ toString p else base
  | none => base

/-- The `context_lines` built from the packed blocks (header, text, blank
per block, 1-based). -/
def ctxLines : Nat → List PackBlock → List String
  | _, [] => []
  | i, b :: bs => citHead i b :: b.text :: "" :: ctxLines (i + 1) bs

/-- The block `context_block = "\n".join(context_lines).strip()`. -/
def contextBlock (packed : List PackBlock) : String :=
  stripStr (joinWith "\n" ("CONTEXT:" :: ctxLines 1 packed))

/-- The hint `scope_hint` (Python truthiness: a `document_id` of `0` yields no hint). -/
def scopeHint (docId : Option Int) : String :=
  match docId with
  | some d => if d ≠ 0 then " (scope: document_id=" ++ toString d ++ ")" else ""
  | none => ""

/-- The user message sent to the LLM. -/
def userMsgFor (docId : Option Int) (q : String) (packed : List PackBlock) : String :=
  "Return a coherent answer with bullet points and short paragraphs. Don\x27t invent facts. Always cite.\n\n"
    ++ contextBlock packed ++ "\n\nQUESTION" ++ scopeHint docId ++ ": " ++ q

/-- The suffix appended for the single stricter regeneration attempt. -/
def stricterSuffix : String :=
  "\n\nStrictly include citations like [CIT-#] from CONTEXT only."

/-- The fixed short-circuit answer text. -/
def insufficientMsg : String :=
  "Insufficient context; try different keywords or remove filters."

/-- One entry of the response's `citations` list. -/
structure Citation where
  cit : String
  documentId : Nat
  pageNo : Option Int
  title : String
deriving Repr, DecidableEq

/-- Mapping the extracted citation indices through `cit_map`, silently
dropping indices outside `1..len(cit_map)`. -/
def citationsFor (citMap : List Prov) (idxs : List Nat) : List Citation :=
  idxs.filterMap (fun i =>
    if 1 ≤ i ∧ i ≤ citMap.length then
      (citMap.get? (i - 1)).map (fun p =>
        ⟨"CIT-" ++ toString i, p.documentId, p.pageNo, p.title⟩)
    else none)

/-- The observable response of `answer_api` (success paths), together with
the transcript of `(system, user)` message pairs of every LLM call issued. -/
structure AnswerResult where
  answer : String
  citations : List Citation
  usedChunks : List Nat
  llmMs : Nat
  calls : List (String × String)

/-- The inputs of one `answer_api` invocation. -/
structure AnswerInput where
  q : String
  docId : Option Int
  maxCtxTokens : Nat
  topItems : List HybridItem
  chunkDb : Nat → Option AnswerRow
  llm : Nat → String
  llmMsOf : Nat → Nat

/-- The empty initial packing state. -/
def initPackState : AnswerPackState := ⟨[], [], 0, [], []⟩

/-- The packing result of a non-short-circuited call. -/
def packStateOf (inp : AnswerInput) : AnswerPackState :=
  packLoop inp.chunkDb inp.maxCtxTokens inp.topItems initPackState

/-- The first user message a non-short-circuited call sends. -/
def builtUserMsg (inp : AnswerInput) : String :=
  userMsgFor inp.docId inp.q (packStateOf inp).packed

/-- Model of `answer_api` after request parsing: short-circuit on empty retrieval,
otherwise pack, prompt, generate, and regenerate once (with
`stricterSuffix` appended to the user message) when the first reply
contains no citation markers. -/
def answerApi (inp : AnswerInput) : AnswerResult :=
  if inp.topItems.isEmpty then
    ⟨insufficientMsg, [], [], 0, []⟩
  else
    let st := packStateOf inp
    let userMsg := builtUserMsg inp
    let reply1 := inp.llm 0
    let cit1 := extractCitationIndices reply1
    if cit1.isEmpty then
      let stricter := userMsg ++ stricterSuffix
      let reply2 := inp.llm 1
      let cit2 := extractCitationIndices reply2
      ⟨reply2, citationsFor st.citMap cit2, st.usedChunkIds, inp.llmMsOf 1,
        [(systemMsg, userMsg), (systemMsg, stricter)]⟩
    else
      ⟨reply1, citationsFor st.citMap cit1, st.usedChunkIds, inp.llmMsOf 0,
        [(systemMsg, userMsg)]⟩

/-! ## Concrete instances used by the witnesses and counterexamples -/

/-- An OCR result pair with a recognised token of confidence `0`. -/
def c3Data : TessData := ⟨["word"], ["0"]⟩

/-- Semantic rows whose similarities are `[1, 1, 1, 5]` (mean 2, sample
variance 4, standard deviation 2); the first row carries the falsy stored
confidence `ocr_conf = 0.0`. -/
def c4Row1 : SemRow := ⟨1, 1, "d1", some 1, some 0, 0, "p1", 0⟩

def c4Row2 : SemRow := ⟨2, 1, "d2", some 1, some 1, 0, "p2", 50⟩

def c4Row3 : SemRow := ⟨3, 1, "d3", some 2, some 0, 0, "p3", 50⟩

def c4Row4 : SemRow := ⟨4, 1, "d4", some 2, some 1, -4, "p4", 50⟩

def c4CexRows : List SemRow := [c4Row1, c4Row2, c4Row3, c4Row4]

/-- A single semantic row (similarity `0`, confidence `80`) for the
witness instance. -/
def c4WitRow : SemRow := ⟨7, 2, "w", some 3, some 0, 1, "pw", 80⟩

/-- The single blended item `blendItems [c4WitRow] []` produces. -/
noncomputable def c4WitItem : HybridItem :=
  scoreItem (seedSemEntry (zstats [semSim c4WitRow]).1 (zstats [semSim c4WitRow]).2 c4WitRow)

/-- The blended item `blendItems c4CexRows []` produces for `c4Row1`. -/
noncomputable def c4CexItem : HybridItem :=
  scoreItem (seedSemEntry (zstats (c4CexRows.map semSim)).1
    (zstats (c4CexRows.map semSim)).2 c4Row1)

/-- An `answer_api` invocation whose retrieval came back empty. -/
def c7Input : AnswerInput :=
  ⟨"unanswerable", none, 3000, [], fun _ => none, fun _ => "", fun _ => 0⟩

/-- A retrieval item, its chunk row, and an LLM that never emits citation
markers. -/
def c8Item : HybridItem := ⟨1, 1, "Doc", some 1, some 0, none, none, 0, 0, 100, 0, False⟩

def c8Db : Nat → Option AnswerRow :=
  fun i => if i = 1 then some ⟨some "hello world", some 1, some 0, 1, "Doc"⟩ else none

def c8Input : AnswerInput :=
  ⟨"what is it", none, 3000, [c8Item], c8Db, fun _ => "no markers here", fun n => n + 3⟩

/-- The chunk persisted for the embedded-text page `"Hello world"`. -/
def c9Chunk : ChunkNew := ⟨1, 1, 1, 0, "Hello world", "text", 2, 100, some "Hello world"⟩

/-- One run of `index_embeddings(batch_size=1)` over `twoChunks`, starting from an
empty embeddings table. -/
def firstIndexRun : IndexResult :=
  indexEmbeddings constEmbed none 1 "all-MiniLM-L6-v2" twoChunks []

/-- The same call repeated on the state the first run left behind, with no
chunks created in between. -/
def secondIndexRun : IndexResult :=
  indexEmbeddings constEmbed none 1 "all-MiniLM-L6-v2" twoChunks firstIndexRun.embs

/-! # Theorems -/

/-! ## Lemmas on the `\w+|\S` token count -/

theorem space_not_word {c : Char} (h : isSpaceChar c = true) : isWordChar c = false := by
  simp only [isSpaceChar, Bool.or_eq_true, decide_eq_true_eq] at h
  rcases h with ((((h | h) | h) | h) | h) | h <;> subst h <;> decide

theorem tokAux_space_cons {c : Char} (b : Bool) (ys : List Char)
    (h : isSpaceChar c = true) : tokAux b (c :: ys) = tokAux false ys := by
  simp [tokAux, space_not_word h, h]

theorem tokAux_append (xs : List Char) : ∀ (b : Bool) (ys : List Char),
    tokAux b (xs ++ ys) = tokAux b xs + tokAux (tokState b xs) ys := by
  induction xs with
  | nil => intro b ys; simp [tokAux, tokState]
  | cons c cs ih =>
    intro b ys
    by_cases hw : isWordChar c
    · simp [tokAux, tokState, hw, ih, Nat.add_assoc]
    · by_cases hs : isSpaceChar c
      · simp [tokAux, tokState, hw, hs, ih]
      · simp [tokAux, tokState, hw, hs, ih, Nat.add_assoc]

theorem tokAux_all_space : ∀ (w : List Char) (b : Bool),
    (∀ c ∈ w, isSpaceChar c = true) → tokAux b w = 0 := by
  intro w
  induction w with
  | nil => intro b _; rfl
  | cons c cs ih =>
    intro b h
    rw [tokAux_space_cons b cs (h c (by simp))]
    exact ih false (fun d hd => h d (by simp [hd]))

theorem tokAux_stripLeft (l : List Char) : tokAux false (stripLeft l) = tokAux false l := by
  induction l with
  | nil => rfl
  | cons c cs ih =>
    by_cases hs : isSpaceChar c
    · rw [tokAux_space_cons false cs hs]
      simpa [stripLeft, hs] using ih
    · simp [stripLeft, hs]

theorem tokAux_stripRight (l : List Char) (b : Bool) :
    tokAux b (stripRight l) = tokAux b l := by
  have hdecomp : l = stripRight l ++ (l.reverse.takeWhile (fun c => isSpaceChar c)).reverse := by
    have h := List.takeWhile_append_dropWhile (fun c => isSpaceChar c) l.reverse
    calc l = l.reverse.reverse := by rw [List.reverse_reverse]
      _ = (l.reverse.takeWhile (fun c => isSpaceChar c)
            ++ l.reverse.dropWhile (fun c => isSpaceChar c)).reverse := by rw [h]
      _ = stripRight l ++ (l.reverse.takeWhile (fun c => isSpaceChar c)).reverse := by
            rw [List.reverse_append]; rfl
  conv_rhs => rw [hdecomp]
  rw [tokAux_append]
  have hall : ∀ c ∈ (l.reverse.takeWhile (fun c => isSpaceChar c)).reverse,
      isSpaceChar c = true := by
    intro c hc
    exact List.mem_takeWhile_imp (List.mem_reverse.mp hc)
  rw [tokAux_all_space _ _ hall]
  omega

theorem roughTokens_strip (s : String) : roughTokens (stripStr s) = roughTokens s := by
  show tokAux false (stripRight (stripLeft s.data)) = tokAux false s.data
  rw [tokAux_stripRight, tokAux_stripLeft]

theorem roughTokens_sep_append (a b : String) :
    roughTokens (a ++ "\n\n" ++ b) = roughTokens a + roughTokens b := by
  show tokAux false (a ++ "\n\n" ++ b).data = _
  rw [String.data_append, String.data_append]
  rw [List.append_assoc, tokAux_append]
  have h1 : tokAux (tokState false a.data) (("\n\n").data ++ b.data) = tokAux false b.data := by
    show tokAux (tokState false a.data) ('\n' :: '\n' :: b.data) = tokAux false b.data
    rw [tokAux_space_cons _ _ (by decide), tokAux_space_cons _ _ (by decide)]
  rw [h1]; rfl

theorem roughTokens_joinParas : ∀ l : List String,
    roughTokens (joinParas l) = (l.map roughTokens).sum := by
  intro l
  induction l with
  | nil => rfl
  | cons x xs ih =>
    cases xs with
    | nil => simp [joinParas, joinWith]
    | cons y rest =>
      have : joinParas (x :: y :: rest) = x ++ "\n\n" ++ joinParas (y :: rest) := rfl
      rw [this, roughTokens_sep_append, ih]
      simp

/-! ## The greedy packing loop of `_chunk_page_text` -/

theorem roughTokens_chunk (cur : List String) :
    roughTokens (stripStr (joinParas cur)) = (cur.map roughTokens).sum := by
  rw [roughTokens_strip, roughTokens_joinParas]

theorem packStep_inv (tmin tmax ovl : Nat) (st : PackState) (p : String)
    (hinv : PackInvariant tmin st) :
    PackInvariant tmin (packStep tmin tmax ovl st p) := by
  obtain ⟨h1, h2, h3⟩ := hinv
  unfold packStep
  by_cases hA : st.curTokens + roughTokens p ≤ tmax
  · rw [if_pos hA]
    exact ⟨by simp [h1], by simp, h3⟩
  · rw [if_neg hA]
    by_cases hB : tmin ≤ st.curTokens ∨ st.cur = []
    · rw [if_pos hB]
      have hchunks : ∀ i (h : i < (st.chunks ++ [stripStr (joinParas st.cur)]).length),
          tmin ≤ roughTokens ((st.chunks ++ [stripStr (joinParas st.cur)]).get ⟨i, h⟩)
          ∨ (i = 0 ∧ (st.chunks ++ [stripStr (joinParas st.cur)]).get ⟨i, h⟩ = "") := by
        intro i h
        rcases Nat.lt_or_ge i st.chunks.length with hi | hi
        · have := h3 i hi
          simpa [List.get_eq_getElem, List.getElem_append_left hi] using this
        · have hieq : i = st.chunks.length := by
            simp only [List.length_append, List.length_singleton] at h
            omega
          subst hieq
          have hget : (st.chunks ++ [stripStr (joinParas st.cur)]).get ⟨st.chunks.length, h⟩
              = stripStr (joinParas st.cur) := by
            simp [List.get_eq_getElem, List.getElem_append_right (le_refl st.chunks.length)]
          rw [hget]
          rcases hB with hB | hB
          · left
            rw [roughTokens_chunk, ← h1]
            exact hB
          · right
            have hze : st.chunks = [] := h2 hB
            constructor
            · simp [hze]
            · rw [hB]
              rfl
      simp only []
      split
      · exact ⟨by simp, by simp, hchunks⟩
      · exact ⟨by simp, by simp, hchunks⟩
    · rw [if_neg hB]
      exact ⟨by simp [h1], by simp, h3⟩

theorem packFoldl_inv (tmin tmax ovl : Nat) : ∀ (paras : List String) (st : PackState),
    PackInvariant tmin st →
    PackInvariant tmin (paras.foldl (packStep tmin tmax ovl) st) := by
  intro paras
  induction paras with
  | nil => intro st h; exact h
  | cons p ps ih =>
    intro st h
    exact ih _ (packStep_inv tmin tmax ovl st p h)

theorem packParagraphs_min (tmin tmax ovl : Nat) (paras : List String) (i : Nat)
    (h : i + 1 < (packParagraphs tmin tmax ovl paras).length) :
    tmin ≤ roughTokens ((packParagraphs tmin tmax ovl paras).get ⟨i, Nat.lt_of_succ_lt h⟩)
    ∨ (i = 0 ∧ (packParagraphs tmin tmax ovl paras).get ⟨i, Nat.lt_of_succ_lt h⟩ = "") := by
  have hinv : PackInvariant tmin (paras.foldl (packStep tmin tmax ovl) ⟨[], [], 0⟩) := by
    refine packFoldl_inv tmin tmax ovl paras ⟨[], [], 0⟩ ⟨rfl, fun _ => rfl, ?_⟩
    intro i hi
    simp at hi
  obtain ⟨_, h2, h3⟩ := hinv
  revert h
  unfold packParagraphs finishPack
  set stF := paras.foldl (packStep tmin tmax ovl) ⟨[], [], 0⟩ with hstF
  by_cases hc : stF.cur.isEmpty
  · rw [if_pos hc]
    intro h
    have : stF.chunks = [] := h2 (List.isEmpty_iff.mp hc)
    rw [this] at h
    simp at h
  · rw [if_neg hc]
    intro h
    have hi : i < stF.chunks.length := by
      simp only [List.length_append, List.length_singleton] at h
      omega
    have h0 := h3 i hi
    have hg : (stF.chunks ++ [stripStr (joinParas stF.cur)]).get ⟨i, Nat.lt_of_succ_lt h⟩
        = stF.chunks.get ⟨i, hi⟩ := by
      simp [List.get_eq_getElem, List.getElem_append_left hi]
    rw [hg]
    exact h0

theorem chunkPageText_length (p : Nat) (t : String) (a b c : Nat) :
    (chunkPageText p t a b c).length = (packParagraphs a b c (parseParas t).paras).length := by
  simp [chunkPageText, List.enum_length]

theorem chunkPageText_chunk (p : Nat) (t : String) (a b c : Nat) (i : Nat)
    (h : i < (chunkPageText p t a b c).length) :
    ((chunkPageText p t a b c).get ⟨i, h⟩).2.1
      = (packParagraphs a b c (parseParas t).paras).get
          ⟨i, by rw [← chunkPageText_length p t a b c]; exact h⟩ := by
  simp [chunkPageText, List.get_eq_getElem, List.getElem_map, List.getElem_enum]

/-! ## Claim C2: chunk sizes (corrected) -/

/-- C2, counterexample: a page whose single paragraph alone exceeds the
700-token max window.  `_chunk_page_text` flushes while `cur` is empty
(`cur_tokens >= target_min or not cur` with `cur == []`), emitting an empty
first chunk: the produced chunks have token estimates `[0, 701]`, so the
first (non-last) chunk has estimate `0 < 300` — and is empty — refuting the
claim as stated. -/
theorem c2_chunker_counterexample :
    ((chunkPageText 1 hugeParaText 300 700 50).map (fun c => roughTokens c.2.1)) = [0, 701] := by
  decide

/-- C2 (amended): with the default windows (min 300, max 700, overlap 50),
every chunk emitted by `_chunk_page_text` except possibly the last chunk of
the page has a proxy token estimate of at least the min window, unless it
is the **first** chunk of the page and empty — which happens exactly when
the loop must flush while `cur` is still empty, i.e. when the page's first
paragraph alone exceeds the max window. -/
theorem c2_chunker_min_window_amended (text : String) (i : Nat)
    (hi : i + 1 < (chunkPageText 1 text 300 700 50).length) :
    300 ≤ roughTokens ((chunkPageText 1 text 300 700 50).get ⟨i, Nat.lt_of_succ_lt hi⟩).2.1
    ∨ (i = 0 ∧ ((chunkPageText 1 text 300 700 50).get ⟨i, Nat.lt_of_succ_lt hi⟩).2.1 = "") := by
  have hlen : i + 1 < (packParagraphs 300 700 50 (parseParas text).paras).length := by
    rw [← chunkPageText_length 1 text 300 700 50]
    exact hi
  have hres := packParagraphs_min 300 700 50 (parseParas text).paras i hlen
  rw [chunkPageText_chunk 1 text 300 700 50 i (Nat.lt_of_succ_lt hi)]
  exact hres

/-- Witness for C2 at the concrete page `hugeParaText`, `i = 0`: the first
of its two chunks is the empty chunk. -/
theorem c2_chunker_min_window_amended_witness :
    300 ≤ roughTokens ((chunkPageText 1 hugeParaText 300 700 50).get
        ⟨0, Nat.lt_of_succ_lt (by decide)⟩).2.1
    ∨ (0 = 0 ∧ ((chunkPageText 1 hugeParaText 300 700 50).get
        ⟨0, Nat.lt_of_succ_lt (by decide)⟩).2.1 = "") :=
  c2_chunker_min_window_amended hugeParaText 0 (by decide)

/-! ## Claims C1 and C5: the embedding indexer (code bug)

`iter_chunk_ids_texts` pages with `LIMIT batch_size OFFSET offset` over the
query "chunks with no embedding yet", but `index_embeddings` commits new
embeddings between pages, so the query's result shrinks by one batch while
`offset` still advances by one batch: every second batch of pending chunks
is skipped. -/

/-- C1 (code bug, failing input): two chunks lack embeddings and
`batch_size = 1`.  The run embeds chunk 1, never embeds chunk 2 (which
still satisfies the "lacking an embedding" query afterwards), and reports
`chunks_indexed = vectors_created = 1` instead of 2. -/
theorem c1_indexer_skips_pending_chunks :
    firstIndexRun.chunksIndexed = 1
    ∧ firstIndexRun.vectorsCreated = 1
    ∧ hasEmbedding firstIndexRun.embs 1 = true
    ∧ hasEmbedding firstIndexRun.embs 2 = false
    ∧ pendingChunks twoChunks firstIndexRun.embs none = [⟨2, 1, some "beta"⟩] := by
  refine ⟨?_, ?_, ?_, ?_, ?_⟩ <;>
    simp [firstIndexRun, indexEmbeddings, indexLoop, pageOf, pendingChunks, sortById,
      insertById, docMatches, hasEmbedding, twoChunks, constEmbed]

/-- C5 (code bug, failing input): re-running on the same two-chunk scope
with nothing created in between, the second run picks up the chunk the
first run skipped: it creates one new vector and reports count 1, not 0. -/
theorem c5_indexer_second_run_not_zero :
    secondIndexRun.vectorsCreated = 1 ∧ secondIndexRun.chunksIndexed = 1 := by
  constructor <;>
    simp [secondIndexRun, firstIndexRun, indexEmbeddings, indexLoop, pageOf, pendingChunks,
      sortById, insertById, docMatches, hasEmbedding, twoChunks, constEmbed]

/-! ## Claim C3: OCR variant selection (corrected) -/

theorem ocr_scorePair_zero : scorePair c3Data = ("word", 0) := by
  have hpf : pyFloat? "0" = some ((1 : ℚ) * ((0 : ℕ) : ℚ)) := rfl
  simp only [scorePair]
  rw [show (c3Data.text.zip c3Data.conf).filter keepTok = [("word", "0")] from rfl]
  simp only [List.map_cons, List.map_nil, List.filterMap_cons, List.filterMap_nil, hpf]
  norm_num
  rfl

/-- C3, counterexample: a single `(variant, configuration)` pair whose only
recognised token is `"word"` with (valid) confidence `"0"`.  Its non-empty
output has the highest average confidence (namely `0`) among all pairs, so
the claim requires `("word", 0)`; but `_ocr_best` only replaces the running
best under the strict test `conf > best_conf` against the initial
`best_conf = 0.0`, so it returns `("", 0.0)`. -/
theorem c3_ocr_best_counterexample :
    ocrBest [c3Data] = ("", 0) ∧ scorePair c3Data = ("word", 0) := by
  refine ⟨?_, ocr_scorePair_zero⟩
  unfold ocrBest
  simp only [List.foldl_cons, List.foldl_nil]
  unfold ocrStep
  rw [ocr_scorePair_zero]
  norm_num

/-- C3 (amended): over the per-pair results in iteration order, `_ocr_best`
returns the first pair attaining the maximal average confidence among the
pairs with non-empty output **and strictly positive average confidence**;
when no pair has both non-empty text and positive average confidence it
returns `("", 0)`. -/
theorem c3_ocr_best_amended (results : List TessData) :
    (ocrBest results = ("", 0) ∧ ∀ d ∈ results, (scorePair d).1 = "" ∨ (scorePair d).2 ≤ 0)
    ∨ (∃ pre d post, results = pre ++ d :: post
        ∧ ocrBest results = scorePair d
        ∧ (scorePair d).1 ≠ "" ∧ 0 < (scorePair d).2
        ∧ (∀ e ∈ results, (scorePair e).1 ≠ "" → (scorePair e).2 ≤ (scorePair d).2)
        ∧ (∀ e ∈ pre, (scorePair e).1 = "" ∨ (scorePair e).2 < (scorePair d).2)) := by
  induction results using List.reverseRecOn with
  | nil => left; exact ⟨rfl, by simp⟩
  | append_singleton l x ih =>
    have hstep : ocrBest (l ++ [x]) = ocrStep (ocrBest l) x := by
      simp [ocrBest, List.foldl_append]
    by_cases hx : (ocrBest l).2 < (scorePair x).2 ∧ (scorePair x).1 ≠ ""
    · right
      have hbx : ocrBest (l ++ [x]) = scorePair x := by
        rw [hstep]
        unfold ocrStep
        rw [if_pos hx]
      have hposx : 0 < (scorePair x).2 := by
        rcases ih with ⟨hb, _⟩ | ⟨pre, d, post, _, hbd, _, hpos, _, _⟩
        · have h0 : (ocrBest l).2 = 0 := by rw [hb]
          linarith [hx.1]
        · have hlt : (scorePair d).2 < (scorePair x).2 := by rw [← hbd]; exact hx.1
          linarith
      refine ⟨l, x, [], by simp, hbx, hx.2, hposx, ?_, ?_⟩
      · intro e he hne
        rcases List.mem_append.mp he with he | he
        · rcases ih with ⟨hb, hall⟩ | ⟨pre, d, post, _, hbd, _, _, hmax, _⟩
          · rcases hall e he with h | h
            · exact absurd h hne
            · have h0 : (ocrBest l).2 = 0 := by rw [hb]
              linarith [hx.1]
          · have h1 := hmax e he hne
            have h2 : (scorePair d).2 < (scorePair x).2 := by rw [← hbd]; exact hx.1
            linarith
        · have : e = x := by simpa using he
          subst this
          exact le_refl _
      · intro e he
        by_cases hne : (scorePair e).1 = ""
        · exact Or.inl hne
        · right
          rcases ih with ⟨hb, hall⟩ | ⟨pre, d, post, _, hbd, _, _, hmax, _⟩
          · rcases hall e he with h | h
            · exact absurd h hne
            · have h0 : (ocrBest l).2 = 0 := by rw [hb]
              linarith [hx.1]
          · have h1 := hmax e he hne
            have h2 : (scorePair d).2 < (scorePair x).2 := by rw [← hbd]; exact hx.1
            linarith
    · have hkeep : ocrBest (l ++ [x]) = ocrBest l := by
        rw [hstep]
        unfold ocrStep
        rw [if_neg hx]
      rcases ih with ⟨hb, hall⟩ | ⟨pre, d, post, heq, hbd, hne, hpos, hmax, hpre⟩
      · left
        refine ⟨by rw [hkeep, hb], ?_⟩
        intro e he
        rcases List.mem_append.mp he with he | he
        · exact hall e he
        · have : e = x := by simpa using he
          subst this
          rcases not_and_or.mp hx with h | h
          · right
            push_neg at h
            have h0 : (ocrBest l).2 = 0 := by rw [hb]
            linarith
          · left
            push_neg at h
            exact h
      · right
        refine ⟨pre, d, post ++ [x], by rw [heq]; simp, by rw [hkeep]; exact hbd, hne, hpos, ?_, hpre⟩
        intro e he hne'
        rcases List.mem_append.mp he with he | he
        · exact hmax e he hne'
        · have : e = x := by simpa using he
          subst this
          rcases not_and_or.mp hx with h | h
          · push_neg at h
            rw [hbd] at h
            exact h
          · push_neg at h
            exact absurd h hne'

/-! ## Claim C10: citation indices (confirmed) -/

theorem insertSortedNodup_mem (n x : Nat) (l : List Nat) :
    x ∈ insertSortedNodup n l ↔ x = n ∨ x ∈ l := by
  induction l with
  | nil => simp [insertSortedNodup]
  | cons m ms ih =>
    unfold insertSortedNodup
    by_cases h1 : n < m
    · rw [if_pos h1]
      simp
    · rw [if_neg h1]
      by_cases h2 : n = m
      · rw [if_pos h2]
        subst h2
        simp only [List.mem_cons]
        tauto
      · rw [if_neg h2]
        simp only [List.mem_cons, ih]
        tauto

theorem insertSortedNodup_sorted (n : Nat) (l : List Nat) (h : l.Sorted (· < ·)) :
    (insertSortedNodup n l).Sorted (· < ·) := by
  induction l with
  | nil => simp [insertSortedNodup]
  | cons m ms ih =>
    rw [List.sorted_cons] at h
    obtain ⟨hm, hms⟩ := h
    unfold insertSortedNodup
    by_cases h1 : n < m
    · rw [if_pos h1]
      rw [List.sorted_cons]
      refine ⟨?_, List.sorted_cons.mpr ⟨hm, hms⟩⟩
      intro b hb
      rcases List.mem_cons.mp hb with hb | hb
      · omega
      · have := hm b hb
        omega
    · rw [if_neg h1]
      by_cases h2 : n = m
      · rw [if_pos h2]
        exact List.sorted_cons.mpr ⟨hm, hms⟩
      · rw [if_neg h2]
        rw [List.sorted_cons]
        refine ⟨?_, ih hms⟩
        intro b hb
        rcases (insertSortedNodup_mem n b ms).mp hb with hb | hb
        · omega
        · exact hm b hb

theorem foldr_insertSortedNodup_sorted (L : List Nat) :
    (L.foldr insertSortedNodup []).Sorted (· < ·) := by
  induction L with
  | nil => simp
  | cons n t ih => exact insertSortedNodup_sorted n _ ih

theorem foldr_insertSortedNodup_mem (L : List Nat) (x : Nat) :
    x ∈ L.foldr insertSortedNodup [] ↔ x ∈ L := by
  induction L with
  | nil => simp
  | cons n t ih =>
    simp only [List.foldr_cons, insertSortedNodup_mem, ih, List.mem_cons]

theorem citationsFor_cits (citMap : List Prov) (idxs : List Nat) :
    (citationsFor citMap idxs).map (fun c => c.cit)
      = (idxs.filter (fun i => decide (1 ≤ i ∧ i ≤ citMap.length))).map
          (fun i => "CIT-" ++ toString i) := by
  induction idxs with
  | nil => rfl
  | cons i t ih =>
    unfold citationsFor
    unfold citationsFor at ih
    rw [List.filterMap_cons]
    by_cases hc : 1 ≤ i ∧ i ≤ citMap.length
    · have hlt : i - 1 < citMap.length := by omega
      rw [List.filter_cons_of_pos (by simpa using hc)]
      simp only [if_pos hc, List.get?_eq_get hlt, Option.map_some', List.map_cons]
      rw [ih]
    · rw [List.filter_cons_of_neg (by simpa using hc)]
      simp only [if_neg hc]
      exact ih

/-- C10 (confirmed): `extract_citation_indices` returns the numbers of the
`[CIT-#]` markers found in the reply, sorted strictly ascending (hence
deduplicated), regardless of their order or multiplicity in the text; and
the `citations` list `answer_api` builds from them keeps exactly the
in-range indices in that ascending order — at most one entry per index,
ordered by index. -/
theorem c10_citation_indices (s : String) (citMap : List Prov) :
    (extractCitationIndices s).Sorted (· < ·)
    ∧ (∀ n, n ∈ extractCitationIndices s ↔ n ∈ scanCits s.data)
    ∧ ((extractCitationIndices s).filter
        (fun i => decide (1 ≤ i ∧ i ≤ citMap.length))).Sorted (· < ·)
    ∧ (citationsFor citMap (extractCitationIndices s)).map (fun c => c.cit)
        = ((extractCitationIndices s).filter
            (fun i => decide (1 ≤ i ∧ i ≤ citMap.length))).map
            (fun i => "CIT-" ++ toString i) := by
  refine ⟨foldr_insertSortedNodup_sorted _, fun n => foldr_insertSortedNodup_mem _ n, ?_, ?_⟩
  · exact List.Pairwise.filter _ (foldr_insertSortedNodup_sorted _)
  · exact citationsFor_cits citMap (extractCitationIndices s)

/-! ## Claim C7: empty retrieval short-circuit (confirmed) -/

/-- C7 (confirmed): when hybrid retrieval returns no candidates,
`answer_api` returns the fixed insufficient-context response with empty
citations, empty used-chunk list and `llm_ms = 0`, and issues no LLM call
at all (the transcript of calls is empty). -/
theorem c7_empty_retrieval_short_circuit (inp : AnswerInput)
    (h : inp.topItems = []) :
    answerApi inp = ⟨insufficientMsg, [], [], 0, []⟩ := by
  unfold answerApi
  rw [h]
  simp

/-- Witness for C7: a concrete request with empty retrieval. -/
theorem c7_empty_retrieval_short_circuit_witness :
    answerApi c7Input = ⟨insufficientMsg, [], [], 0, []⟩ :=
  c7_empty_retrieval_short_circuit c7Input rfl

/-! ## Claim C8: single stricter regeneration (confirmed) -/

/-- C8 (confirmed): when the first LLM reply contains no `[CIT-#]` marker,
`answer_api` issues exactly one regeneration — the transcript has exactly
two calls, the second with `stricterSuffix` appended to the same user
message — and the second reply is returned as the answer no matter what it
contains (in particular, no third call even if it too has no markers). -/
theorem c8_single_stricter_regeneration (inp : AnswerInput)
    (hne : inp.topItems ≠ [])
    (hfirst : extractCitationIndices (inp.llm 0) = []) :
    (answerApi inp).calls
        = [(systemMsg, builtUserMsg inp), (systemMsg, builtUserMsg inp ++ stricterSuffix)]
    ∧ (answerApi inp).answer = inp.llm 1 := by
  unfold answerApi
  rw [if_neg (fun hab => hne (List.isEmpty_iff.mp hab))]
  simp only []
  rw [hfirst]
  simp

/-- Witness for C8: one retrieved chunk and an LLM whose replies never
contain markers; both hypotheses are discharged by computation. -/
theorem c8_single_stricter_regeneration_witness :
    (answerApi c8Input).calls
        = [(systemMsg, builtUserMsg c8Input), (systemMsg, builtUserMsg c8Input ++ stricterSuffix)]
    ∧ (answerApi c8Input).answer = c8Input.llm 1 :=
  c8_single_stricter_regeneration c8Input (by simp [c8Input]) rfl

/-! ## Claim C9: embedded-text pages and the confidence multiplier
(confirmed) -/

/-- C9 (confirmed): every chunk persisted for a PDF page whose embedded
text was used (extractor confidence `None`) stores
`extra_json["ocr_conf"] = 100.0`; in hybrid retrieval a candidate carrying
that stored confidence gets multiplier `confMult = 1` exactly and its
`low_confidence` flag (`conf < 60`) is false. -/
theorem c9_embedded_text_full_confidence (docId pageNo : Nat) (text : String)
    (c : ChunkNew) (hc : c ∈ pdfPageChunks docId pageNo text none) :
    c.ocrConf = 100 ∧ confMult ((c.ocrConf : ℚ) : ℝ) = 1
    ∧ ¬ (effConf ((c.ocrConf : ℚ) : ℝ) < 60) := by
  have h100 : c.ocrConf = 100 := by
    rcases List.mem_map.mp hc with ⟨ich, _, rfl⟩
    rfl
  have hcast : ((c.ocrConf : ℚ) : ℝ) = 100 := by
    rw [h100]
    norm_num
  have heff : effConf ((c.ocrConf : ℚ) : ℝ) = 100 := by
    rw [hcast]
    unfold effConf
    norm_num
  refine ⟨h100, ?_, ?_⟩
  · unfold confMult
    rw [heff]
    rw [min_eq_right (by norm_num : (100:ℝ) ≤ 100), max_eq_right (by norm_num : (0:ℝ) ≤ 100)]
    norm_num
  · rw [heff]
    norm_num

/-- Witness for C9 at the one-chunk page `"Hello world"`. -/
theorem c9_embedded_text_full_confidence_witness :
    c9Chunk.ocrConf = 100 ∧ confMult ((c9Chunk.ocrConf : ℚ) : ℝ) = 1
    ∧ ¬ (effConf ((c9Chunk.ocrConf : ℚ) : ℝ) < 60) :=
  c9_embedded_text_full_confidence 1 1 "Hello world" c9Chunk
    (show c9Chunk ∈ [c9Chunk] from List.mem_singleton_self c9Chunk)

/-! ## Claim C6: monotonicity of the fused score (confirmed) -/

/-- C6 (confirmed): for any fixed OCR confidence, the fused combined score
is strictly increasing in the normalized semantic score when the lexical
one is held fixed, and vice versa: the confidence multiplier lies in
`[0.85, 1]` and is in particular positive, so the weighted sum's order is
preserved. -/
theorem c6_fused_score_monotone (conf v f v' f' : ℝ) :
    (v < v' → fuseScore v f conf < fuseScore v' f conf)
    ∧ (f < f' → fuseScore v f conf < fuseScore v f' conf) := by
  have hm : 0 < confMult conf := by
    unfold confMult
    have h0 : (0:ℝ) ≤ max 0 (min (effConf conf) 100) := le_max_left _ _
    nlinarith
  constructor
  · intro h
    unfold fuseScore
    exact mul_lt_mul_of_pos_right (by linarith) hm
  · intro h
    unfold fuseScore
    exact mul_lt_mul_of_pos_right (by linarith) hm

/-- Witness for C6 at confidence `100` and scores `0 < 1`. -/
theorem c6_fused_score_monotone_witness :
    fuseScore 0 0 100 < fuseScore 1 0 100 ∧ fuseScore 0 0 100 < fuseScore 0 1 100 :=
  ⟨(c6_fused_score_monotone 100 0 0 1 1).1 (by norm_num),
   (c6_fused_score_monotone 100 0 0 1 1).2 (by norm_num)⟩

/-! ## Claim C4: hybrid score blending (corrected)

The association-list lemmas below characterise the Python `dict` operations
of the blend stage: `lookupKey`/`upsertRow`/`buildDict` and the FTS merge. -/

theorem lookupKey_cons_pos {α : Type} (kv : Nat × α) (m : List (Nat × α)) (k : Nat)
    (h : kv.1 = k) : lookupKey (kv :: m) k = some kv.2 := by
  simp [lookupKey, h]

theorem lookupKey_cons_neg {α : Type} (kv : Nat × α) (m : List (Nat × α)) (k : Nat)
    (h : kv.1 ≠ k) : lookupKey (kv :: m) k = lookupKey m k := by
  simp [lookupKey, h]

theorem lookupKey_mapReplace {α : Type} (g : α → α) (k : Nat) (m : List (Nat × α)) (k' : Nat) :
    lookupKey (m.map (fun kv => if kv.1 == k then (k, g kv.2) else kv)) k'
      = if k' = k then (lookupKey m k).map g else lookupKey m k' := by
  induction m with
  | nil => by_cases h : k' = k <;> simp [lookupKey, h]
  | cons a m ih =>
    simp only [List.map_cons]
    by_cases hak : a.1 = k
    · rw [show (if (a.1 == k) = true then (k, g a.2) else a) = (k, g a.2) from
        if_pos (beq_iff_eq.mpr hak)]
      by_cases hk' : k' = k
      · subst hk'
        rw [lookupKey_cons_pos _ _ _ rfl, if_pos rfl, lookupKey_cons_pos _ _ _ hak]
        rfl
      · rw [lookupKey_cons_neg _ _ _ (fun h => hk' h.symm), ih, if_neg hk', if_neg hk',
          lookupKey_cons_neg _ _ _ (by rw [hak]; exact fun h => hk' h.symm)]
    · rw [show (if (a.1 == k) = true then (k, g a.2) else a) = a from
        if_neg (by simpa using hak)]
      by_cases hk' : k' = k
      · subst hk'
        rw [lookupKey_cons_neg _ _ _ hak, ih, if_pos rfl, if_pos rfl,
          lookupKey_cons_neg _ _ _ hak]
      · by_cases haq : a.1 = k'
        · rw [lookupKey_cons_pos _ _ _ haq, if_neg hk', lookupKey_cons_pos _ _ _ haq]
        · rw [lookupKey_cons_neg _ _ _ haq, ih, if_neg hk', if_neg hk',
            lookupKey_cons_neg _ _ _ haq]

theorem lookupKey_append_single {α : Type} (m : List (Nat × α)) (k : Nat) (v : α) (k' : Nat) :
    lookupKey (m ++ [(k, v)]) k'
      = match lookupKey m k' with
        | some w => some w
        | none => if k = k' then some v else none := by
  induction m with
  | nil => simp [lookupKey]
  | cons a m ih =>
    by_cases hak' : a.1 = k'
    · simp [lookupKey, hak']
    · simp [lookupKey, hak', ih]

theorem hasKey_lookup {α : Type} (m : List (Nat × α)) (k : Nat) :
    (m.any (fun kv => kv.1 == k)) = true ↔ (lookupKey m k).isSome := by
  induction m with
  | nil => simp [lookupKey]
  | cons a m ih =>
    by_cases hak : a.1 = k
    · simp [lookupKey, hak]
    · simp [lookupKey, hak, ih]

theorem lookupKey_eq_none {α : Type} (m : List (Nat × α)) (k : Nat)
    (h : k ∉ m.map Prod.fst) : lookupKey m k = none := by
  induction m with
  | nil => rfl
  | cons a m ih =>
    simp only [List.map_cons, List.mem_cons] at h
    push_neg at h
    rw [lookupKey_cons_neg _ _ _ (fun hh => h.1 hh.symm)]
    exact ih h.2

theorem lookupKey_of_mem {α : Type} (m : List (Nat × α)) (k : Nat) (v : α)
    (hnd : (m.map Prod.fst).Nodup) (h : (k, v) ∈ m) : lookupKey m k = some v := by
  induction m with
  | nil => cases h
  | cons a m ih =>
    rcases List.mem_cons.mp h with h | h
    · subst h
      exact lookupKey_cons_pos _ _ _ rfl
    · simp only [List.map_cons, List.nodup_cons] at hnd
      have hk : a.1 ≠ k := by
        intro hak
        exact hnd.1 (hak ▸ (List.mem_map.mpr ⟨(k, v), h, rfl⟩))
      rw [lookupKey_cons_neg _ _ _ hk]
      exact ih hnd.2 h

theorem lookupKey_upsertRow {α : Type} (k : Nat) (v : α) (m : List (Nat × α)) (k' : Nat) :
    lookupKey (upsertRow k v m) k' = if k' = k then some v else lookupKey m k' := by
  unfold upsertRow
  by_cases hany : (m.any (fun kv => kv.1 == k)) = true
  · rw [if_pos hany, lookupKey_mapReplace (fun _ => v) k m k']
    by_cases hk' : k' = k
    · subst hk'
      rw [if_pos rfl, if_pos rfl]
      obtain ⟨w, hw⟩ := Option.isSome_iff_exists.mp ((hasKey_lookup m k').mp hany)
      rw [hw]
      rfl
    · rw [if_neg hk', if_neg hk']
  · rw [if_neg hany, lookupKey_append_single]
    by_cases hk' : k' = k
    · subst hk'
      have hnone : lookupKey m k' = none := by
        cases ho : lookupKey m k'
        · rfl
        · exact absurd ((hasKey_lookup m k').mpr (by rw [ho]; rfl)) hany
      rw [hnone, if_pos rfl]
    · have : lookupKey (m ++ [(k, v)]) k' = lookupKey m k' := by
        rw [lookupKey_append_single]
        cases ho : lookupKey m k'
        · rw [if_neg (fun hh => hk' hh.symm)]
        · rfl
      rw [← lookupKey_append_single, this, if_neg hk']

theorem buildDict_append {α : Type} (key : α → Nat) (rows : List α) (r : α) :
    buildDict key (rows ++ [r]) = upsertRow (key r) r (buildDict key rows) := by
  simp [buildDict, List.foldl_append]

theorem lastByKey_append {α : Type} (key : α → Nat) (rows : List α) (r : α) (k : Nat) :
    lastByKey key (rows ++ [r]) k
      = if key r = k then some r else lastByKey key rows k := by
  unfold lastByKey
  rw [List.filter_append]
  by_cases h : key r = k
  · rw [if_pos h, show List.filter (fun x => key x == k) [r] = [r] from by simp [h]]
    exact List.getLast?_concat _
  · rw [if_neg h, show List.filter (fun x => key x == k) [r] = [] from by simp [h]]
    simp

theorem buildDict_lookup {α : Type} (key : α → Nat) (rows : List α) (k : Nat) :
    lookupKey (buildDict key rows) k = lastByKey key rows k := by
  induction rows using List.reverseRecOn with
  | nil => rfl
  | append_singleton rows r ih =>
    rw [buildDict_append, lookupKey_upsertRow, lastByKey_append]
    by_cases h : key r = k
    · rw [if_pos h, if_pos h.symm]
    · rw [if_neg (fun hh => h hh.symm), if_neg h, ih]

theorem upsertRow_keys_nodup {α : Type} (k : Nat) (v : α) (m : List (Nat × α))
    (h : (m.map Prod.fst).Nodup) : ((upsertRow k v m).map Prod.fst).Nodup := by
  unfold upsertRow
  by_cases hany : (m.any (fun kv => kv.1 == k)) = true
  · rw [if_pos hany]
    have hkeys : (m.map (fun kv => if kv.1 == k then (k, v) else kv)).map Prod.fst
        = m.map Prod.fst := by
      rw [List.map_map]
      apply List.map_congr_left
      intro kv _
      by_cases hk : kv.1 = k
      · simp [hk]
      · simp [hk]
    rw [hkeys]
    exact h
  · rw [if_neg hany, List.map_append]
    refine List.Nodup.append h (by simp) ?_
    intro x hx hx'
    simp only [List.map_cons, List.map_nil, List.mem_singleton] at hx'
    subst hx'
    rcases List.mem_map.mp hx with ⟨kv, hkv, hfst⟩
    simp only [List.any_eq_true, not_exists, not_and] at hany
    exact absurd (beq_iff_eq.mpr hfst) (by simpa using fun hh => hany kv hkv hh)

theorem mem_upsertRow {α : Type} (k : Nat) (v : α) (m : List (Nat × α)) (kv' : Nat × α)
    (h : kv' ∈ upsertRow k v m) : kv' ∈ m ∨ kv' = (k, v) := by
  unfold upsertRow at h
  by_cases hany : (m.any (fun kv => kv.1 == k)) = true
  · rw [if_pos hany] at h
    rcases List.mem_map.mp h with ⟨kv, hkv, hkv'⟩
    by_cases hk : kv.1 = k
    · right
      rw [← hkv']
      simp [hk]
    · left
      rw [← hkv']
      simpa [hk] using hkv
  · rw [if_neg hany] at h
    rcases List.mem_append.mp h with h | h
    · exact Or.inl h
    · exact Or.inr (by simpa using h)

theorem buildDict_mem_key {α : Type} (key : α → Nat) (rows : List α) :
    ∀ kv ∈ buildDict key rows, kv.1 = key kv.2 := by
  induction rows using List.reverseRecOn with
  | nil => intro kv h; cases h
  | append_singleton rows r ih =>
    intro kv h
    rw [buildDict_append] at h
    rcases mem_upsertRow _ _ _ _ h with h | h
    · exact ih kv h
    · rw [h]

theorem buildDict_keys_nodup {α : Type} (key : α → Nat) (rows : List α) :
    ((buildDict key rows).map Prod.fst).Nodup := by
  induction rows using List.reverseRecOn with
  | nil => simp [buildDict]
  | append_singleton rows r ih =>
    rw [buildDict_append]
    exact upsertRow_keys_nodup _ _ _ ih

theorem lookupKey_mapValues {α β : Type} (h : α → β) (m : List (Nat × α)) (k : Nat) :
    lookupKey (m.map (fun kv => (kv.1, h kv.2))) k = (lookupKey m k).map h := by
  induction m with
  | nil => rfl
  | cons a m ih =>
    by_cases hak : a.1 = k
    · rw [List.map_cons, lookupKey_cons_pos (a.1, h a.2) _ _ hak,
        lookupKey_cons_pos a _ _ hak]
      rfl
    · rw [List.map_cons, lookupKey_cons_neg (a.1, h a.2) _ _ hak,
        lookupKey_cons_neg a _ _ hak, ih]

theorem lookupKey_mergeFts (fmu fsd : ℝ) (m : List (Nat × HybridItem)) (cid : Nat)
    (r : FtsRow) (k' : Nat) :
    lookupKey (mergeFts fmu fsd m cid r) k'
      = if k' = cid then
          (match lookupKey m cid with
           | some e => some (updFtsEntry fmu fsd r e)
           | none => some (newFtsEntry fmu fsd r))
        else lookupKey m k' := by
  unfold mergeFts
  by_cases hany : (m.any (fun kv => kv.1 == cid)) = true
  · rw [if_pos hany, lookupKey_mapReplace (updFtsEntry fmu fsd r) cid m k']
    by_cases hk' : k' = cid
    · subst hk'
      rw [if_pos rfl, if_pos rfl]
      obtain ⟨w, hw⟩ := Option.isSome_iff_exists.mp ((hasKey_lookup m k').mp hany)
      rw [hw]
      rfl
    · rw [if_neg hk', if_neg hk']
  · rw [if_neg hany, lookupKey_append_single]
    have hnone : lookupKey m cid = none := by
      cases ho : lookupKey m cid
      · rfl
      · exact absurd ((hasKey_lookup m cid).mpr (by rw [ho]; rfl)) hany
    by_cases hk' : k' = cid
    · subst hk'
      rw [hnone, if_pos rfl]
    · rw [if_neg hk']
      cases ho : lookupKey m k'
      · rw [if_neg (fun hh => hk' hh.symm)]
      · rfl

theorem lookupKey_mergeFold (fmu fsd : ℝ) (F : List (Nat × FtsRow)) :
    ∀ (m : List (Nat × HybridItem)) (cid : Nat), ((F.map Prod.fst).Nodup) →
    lookupKey (F.foldl (fun acc kv => mergeFts fmu fsd acc kv.1 kv.2) m) cid
      = match lookupKey F cid with
        | some f =>
          (match lookupKey m cid with
           | some e => some (updFtsEntry fmu fsd f e)
           | none => some (newFtsEntry fmu fsd f))
        | none => lookupKey m cid := by
  induction F with
  | nil => intro m cid _; rfl
  | cons a F ih =>
    intro m cid hnd
    simp only [List.map_cons, List.nodup_cons] at hnd
    rw [List.foldl_cons, ih _ cid hnd.2]
    by_cases hcid : cid = a.1
    · subst hcid
      have hF : lookupKey F a.1 = none := lookupKey_eq_none _ _ hnd.1
      rw [hF, lookupKey_cons_pos a _ _ rfl, lookupKey_mergeFts, if_pos rfl]
    · rw [lookupKey_cons_neg a _ _ (fun hh => hcid hh.symm)]
      cases hFo : lookupKey F cid
      · rw [lookupKey_mergeFts, if_neg hcid]
      · rw [lookupKey_mergeFts, if_neg hcid]

theorem mergeFts_inv (fmu fsd : ℝ) (m : List (Nat × HybridItem)) (cid : Nat) (r : FtsRow)
    (hnd : (m.map Prod.fst).Nodup) (hkey : ∀ kv ∈ m, kv.1 = kv.2.chunkId)
    (hcid : cid = r.chunkId) :
    ((mergeFts fmu fsd m cid r).map Prod.fst).Nodup
    ∧ ∀ kv ∈ mergeFts fmu fsd m cid r, kv.1 = kv.2.chunkId := by
  unfold mergeFts
  by_cases hany : (m.any (fun kv => kv.1 == cid)) = true
  · rw [if_pos hany]
    constructor
    · have hkeys : (m.map (fun kv => if kv.1 == cid then
            (cid, updFtsEntry fmu fsd r kv.2) else kv)).map Prod.fst = m.map Prod.fst := by
        rw [List.map_map]
        apply List.map_congr_left
        intro kv _
        by_cases hk : kv.1 = cid
        · simp [hk]
        · simp [hk]
      rw [hkeys]
      exact hnd
    · intro kv hkv
      rcases List.mem_map.mp hkv with ⟨kv0, hkv0, hkv'⟩
      by_cases hk : kv0.1 = cid
      · rw [← hkv', if_pos (beq_iff_eq.mpr hk)]
        show cid = (updFtsEntry fmu fsd r kv0.2).chunkId
        have h1 := hkey kv0 hkv0
        rw [hk] at h1
        rw [h1]
        rfl
      · rw [← hkv', if_neg (by simpa using hk)]
        exact hkey kv0 hkv0
  · rw [if_neg hany]
    constructor
    · rw [List.map_append]
      refine List.Nodup.append hnd (by simp) ?_
      intro x hx hx'
      simp only [List.map_cons, List.map_nil, List.mem_singleton] at hx'
      subst hx'
      rcases List.mem_map.mp hx with ⟨kv, hkv, hfst⟩
      simp only [List.any_eq_true, not_exists, not_and] at hany
      exact absurd (beq_iff_eq.mpr hfst) (by simpa using fun hh => hany kv hkv hh)
    · intro kv hkv
      rcases List.mem_append.mp hkv with h | h
      · exact hkey kv h
      · have : kv = (cid, newFtsEntry fmu fsd r) := by simpa using h
        rw [this, hcid]
        rfl

theorem mergeFold_inv (fmu fsd : ℝ) (F : List (Nat × FtsRow)) :
    ∀ (m : List (Nat × HybridItem)),
    ((m.map Prod.fst).Nodup) → (∀ kv ∈ m, kv.1 = kv.2.chunkId) →
    (∀ kv ∈ F, kv.1 = kv.2.chunkId) →
    ((F.foldl (fun acc kv => mergeFts fmu fsd acc kv.1 kv.2) m).map Prod.fst).Nodup
    ∧ ∀ kv ∈ F.foldl (fun acc kv => mergeFts fmu fsd acc kv.1 kv.2) m,
        kv.1 = kv.2.chunkId := by
  induction F with
  | nil => exact fun m h1 h2 _ => ⟨h1, h2⟩
  | cons a F ih =>
    intro m h1 h2 hF
    rw [List.foldl_cons]
    have hinv := mergeFts_inv fmu fsd m a.1 a.2 h1 h2 (hF a (by simp))
    exact ih _ hinv.1 hinv.2 (fun kv hkv => hF kv (by simp [hkv]))

/-- C4 (amended): every candidate the blend stage produces has
`score = (0.6 * vnorm + 0.4 * fnorm) * mult`, where `vnorm` is the
z-normalized semantic similarity (`1 - distance`, normalized over the
semantic rows' values by `zstats`) of the last semantic row with the
candidate's chunk id, `fnorm` the z-normalized lexical rank of the last
FTS row with that id, a missing side contributing `0` — and, amending the
claim, the multiplier is `confMult`, which replaces a falsy stored
confidence `0.0` by `100.0` (`it.get("ocr_conf") or 100.0`) before
clamping, rather than clamping the raw `ocr_conf`. -/
theorem c4_hybrid_score_amended (semRows : List SemRow) (ftsRows : List FtsRow) (it : HybridItem)
    (hit : it ∈ blendItems semRows ftsRows) :
    it.score = fuseScore it.vscore it.fscore it.ocrConf
    ∧ (match lastByKey (fun r => r.chunkId) semRows it.chunkId with
       | some r => it.vscore
           = (semSim r - (zstats (semRows.map semSim)).1)
             / orOne (zstats (semRows.map semSim)).2
       | none => it.vscore = 0)
    ∧ (match lastByKey (fun r => r.chunkId) ftsRows it.chunkId with
       | some f => it.fscore
           = (f.frank - (zstats (ftsRows.map (fun r => r.frank))).1)
             / orOne (zstats (ftsRows.map (fun r => r.frank))).2
       | none => it.fscore = 0) := by
  unfold blendItems at hit
  simp only [] at hit
  rcases List.mem_map.mp hit with ⟨it0, hit0, rfl⟩
  rcases List.mem_map.mp hit0 with ⟨kv, hkv, rfl⟩
  set vmu := (zstats (semRows.map semSim)).1 with hvmu
  set vsd := (zstats (semRows.map semSim)).2 with hvsd
  set fmu := (zstats (ftsRows.map (fun r => r.frank))).1 with hfmu
  set fsd := (zstats (ftsRows.map (fun r => r.frank))).2 with hfsd
  set semD := buildDict (fun r => r.chunkId) semRows with hsemD
  set ftsD := buildDict (fun r => r.chunkId) ftsRows with hftsD
  set seeded := semD.map (fun kv => (kv.1, seedSemEntry vmu vsd kv.2)) with hseeded
  have hsemKey : ∀ kv ∈ semD, kv.1 = (fun r => r.chunkId) kv.2 :=
    buildDict_mem_key (fun r => r.chunkId) semRows
  have hftsKey : ∀ kv ∈ ftsD, kv.1 = (fun r => r.chunkId) kv.2 :=
    buildDict_mem_key (fun r => r.chunkId) ftsRows
  have hseedNodup : (seeded.map Prod.fst).Nodup := by
    have heq : seeded.map Prod.fst = semD.map Prod.fst := by
      rw [hseeded, List.map_map]
      apply List.map_congr_left
      intro kv _
      rfl
    rw [heq, hsemD]
    exact buildDict_keys_nodup _ _
  have hseedKey : ∀ kv ∈ seeded, kv.1 = kv.2.chunkId := by
    intro kv hkv
    rw [hseeded] at hkv
    rcases List.mem_map.mp hkv with ⟨kv0, hkv0, rfl⟩
    show kv0.1 = (seedSemEntry _ _ kv0.2).chunkId
    rw [hsemKey kv0 hkv0]
    rfl
  have hminv := mergeFold_inv fmu fsd ftsD seeded hseedNodup hseedKey hftsKey
  have hlk : lookupKey (ftsD.foldl (fun acc kv => mergeFts fmu fsd acc kv.1 kv.2) seeded) kv.1
      = some kv.2 := lookupKey_of_mem _ kv.1 kv.2 hminv.1 hkv
  have hchar := lookupKey_mergeFold fmu fsd ftsD seeded kv.1
    (by rw [hftsD]; exact buildDict_keys_nodup _ _)
  rw [hlk] at hchar
  rw [hseeded, lookupKey_mapValues] at hchar
  rw [hsemD, hftsD, buildDict_lookup, buildDict_lookup] at hchar
  have hkid : kv.1 = kv.2.chunkId := hminv.2 kv hkv
  rw [hkid] at hchar
  rw [show (scoreItem kv.2).chunkId = kv.2.chunkId from rfl]
  refine ⟨rfl, ?_, ?_⟩
  · cases hs : lastByKey (fun r => r.chunkId) semRows kv.2.chunkId with
    | none =>
      cases hf : lastByKey (fun r => r.chunkId) ftsRows kv.2.chunkId with
      | none =>
        rw [hs, hf] at hchar
        simp at hchar
      | some f =>
        rw [hs, hf] at hchar
        simp only [Option.map_none'] at hchar
        have hkv2 := Option.some.inj hchar
        rw [hkv2]
        rfl
    | some r =>
      cases hf : lastByKey (fun r => r.chunkId) ftsRows kv.2.chunkId with
      | none =>
        rw [hs, hf] at hchar
        simp only [Option.map_some'] at hchar
        have hkv2 := Option.some.inj hchar
        rw [hkv2]
        rfl
      | some f =>
        rw [hs, hf] at hchar
        simp only [Option.map_some'] at hchar
        have hkv2 := Option.some.inj hchar
        rw [hkv2]
        rfl
  · cases hs : lastByKey (fun r => r.chunkId) semRows kv.2.chunkId with
    | none =>
      cases hf : lastByKey (fun r => r.chunkId) ftsRows kv.2.chunkId with
      | none =>
        rw [hs, hf] at hchar
        simp at hchar
      | some f =>
        rw [hs, hf] at hchar
        simp only [Option.map_none'] at hchar
        have hkv2 := Option.some.inj hchar
        rw [hkv2]
        rfl
    | some r =>
      cases hf : lastByKey (fun r => r.chunkId) ftsRows kv.2.chunkId with
      | none =>
        rw [hs, hf] at hchar
        simp only [Option.map_some'] at hchar
        have hkv2 := Option.some.inj hchar
        rw [hkv2]
        rfl
      | some f =>
        rw [hs, hf] at hchar
        simp only [Option.map_some'] at hchar
        have hkv2 := Option.some.inj hchar
        rw [hkv2]
        rfl

theorem c4_cex_sims : c4CexRows.map semSim = [1, 1, 1, 5] := by
  unfold c4CexRows c4Row1 c4Row2 c4Row3 c4Row4 semSim
  norm_num

theorem c4_cex_zstats : zstats ([1, 1, 1, 5] : List ℝ) = (2, 2) := by
  unfold zstats orOne
  have hvar : ((([1, 1, 1, 5] : List ℝ).map (fun x => (x - ([1, 1, 1, 5] : List ℝ).sum / (([1, 1, 1, 5] : List ℝ).length : ℝ)) ^ 2)).sum
      / ((max 1 (([1, 1, 1, 5] : List ℝ).length - 1) : ℕ) : ℝ)) = 4 := by
    norm_num
  simp only [List.isEmpty, if_false]
  rw [hvar]
  have hsqrt : Real.sqrt 4 = 2 := by
    rw [show (4:ℝ) = 2 ^ 2 by norm_num, Real.sqrt_sq (by norm_num : (0:ℝ) ≤ 2)]
  norm_num [hsqrt]

theorem c4_cex_item_mem : c4CexItem ∈ blendItems c4CexRows [] := List.Mem.head _

/-- C4, counterexample: four semantic-only candidates with similarities
`[1, 1, 1, 5]` (so the z-stats are mean `2`, standard deviation `2`), the
first storing `ocr_conf = 0.0`.  Its combined score is
`0.6 * (-1/2) * 1.0 = -0.3` — the code turns the falsy `0.0` into `100.0`
and so uses multiplier `1.0` — whereas the claim's formula
`0.85 + 0.15 * clamp(0, 0, 100) / 100 = 0.85` demands `-0.255`. -/
theorem c4_multiplier_counterexample :
    ¬ (∀ it ∈ blendItems c4CexRows [], it.score
        = (0.6 * it.vscore + 0.4 * it.fscore)
          * (0.85 + 0.15 * max 0 (min it.ocrConf 100) / 100)) := by
  intro h
  have heq := h c4CexItem c4_cex_item_mem
  have hzs : zstats (c4CexRows.map semSim) = (2, 2) := by
    rw [c4_cex_sims]
    exact c4_cex_zstats
  have hvs : c4CexItem.vscore = -(1/2) := by
    show (semSim c4Row1 - (zstats (c4CexRows.map semSim)).1)
        / orOne (zstats (c4CexRows.map semSim)).2 = _
    rw [hzs]
    unfold semSim c4Row1 orOne
    norm_num
  have hscore : c4CexItem.score = -(3/10) := by
    show fuseScore c4CexItem.vscore c4CexItem.fscore c4CexItem.ocrConf = _
    rw [hvs]
    show fuseScore (-(1/2)) 0 0 = _
    unfold fuseScore confMult effConf
    rw [if_pos rfl]
    rw [min_eq_right (by norm_num : (100:ℝ) ≤ 100), max_eq_right (by norm_num : (0:ℝ) ≤ 100)]
    norm_num
  rw [hscore, hvs, show c4CexItem.fscore = 0 from rfl,
    show c4CexItem.ocrConf = 0 from rfl] at heq
  rw [min_eq_left (by norm_num : (0:ℝ) ≤ 100), max_self] at heq
  norm_num at heq

/-- Witness for C4 at a single semantic row and no FTS rows. -/
theorem c4_hybrid_score_amended_witness :
    c4WitItem.score = fuseScore c4WitItem.vscore c4WitItem.fscore c4WitItem.ocrConf
    ∧ (match lastByKey (fun r => r.chunkId) [c4WitRow] c4WitItem.chunkId with
       | some r => c4WitItem.vscore
           = (semSim r - (zstats ([c4WitRow].map semSim)).1)
             / orOne (zstats ([c4WitRow].map semSim)).2
       | none => c4WitItem.vscore = 0)
    ∧ (match lastByKey (fun r => r.chunkId) ([] : List FtsRow) c4WitItem.chunkId with
       | some f => c4WitItem.fscore
           = (f.frank - (zstats (([] : List FtsRow).map (fun r => r.frank))).1)
             / orOne (zstats (([] : List FtsRow).map (fun r => r.frank))).2
       | none => c4WitItem.fscore = 0) :=
  c4_hybrid_score_amended [c4WitRow] [] c4WitItem (List.Mem.head _)
